import Mathlib

/-!
# Verification of django-eventtools occurrence expansion, filtering and merging

A shallow embedding of `eventtools/models.py`.

Modelling conventions:

* Instants (Python `datetime`) are integers counting seconds; a calendar day
  `d` (Python `date`) covers the instants `[d * 86400, d * 86400 + 86399]`,
  so midnight of day `d` is `d * 86400` and `23:59:59` of day `d` is
  `d * 86400 + 86399`.  `datetime.date()` is floor division by 86400.
* Timezone support is modelled in its pass-through mode (`USE_TZ` disabled):
  `default_aware` and `default_naive` are the identity, as in the source when
  timezone support is off.  All comparisons then happen in one representation,
  which is the invariant the source maintains.
* The external rule-expansion capability (`dateutil.rrule`) is modelled by an
  explicit list `instants` of the repeat instants the rule would generate;
  `rruleset.between(lo, hi, inc=True)` is the inclusive filter over that list.
  Where a claim relies on capability guarantees (ascending order, instants not
  preceding `dtstart`) those appear as hypotheses.
* Generators are modelled as the lists they produce; the consumption of rule
  instants by the expansion loop is tracked explicitly by an instrumented
  version of `all_occurrences` so that laziness claims can be settled.
-/

/-- A `date | datetime` argument, as accepted by `as_datetime`. -/
inductive DateOrDT where
  | date (d : Int)
  | dt (t : Int)
deriving DecidableEq, Repr

/-- Model of `as_datetime(d, end=False)`: a bare date expands to `00:00:00`
(start boundary) or `23:59:59` (`end=True`); a datetime passes through
(`default_aware` is the identity in pass-through mode). -/
def as_datetime : DateOrDT → Bool → Int
  | .date d, false => d * 86400
  | .date d, true => d * 86400 + 86399
  | .dt t, _ => t

/-- Model of `datetime.date()`: the calendar day containing an instant. -/
def dateOfDT (t : Int) : Int := Int.fdiv t 86400

/-- Model of proleptic-Gregorian `date(y, 1, 1).toordinal() - 1`, the number
of days before January 1 of year `y`, as computed by Python's `datetime`. -/
def daysBeforeYear (y : Nat) : Nat :=
  365 * (y - 1) + (y - 1) / 4 - (y - 1) / 100 + (y - 1) / 400

/-- Model of `max_future_date()`: `datetime(date.today().year + 10, 1, 1, 0, 0)`,
parameterised by the ambient current year. -/
def max_future_date (todayYear : Nat) : Int :=
  (daysBeforeYear (todayYear + 10) : Int) * 86400

/-- Model of the default `EVENTTOOLS_REPEAT_MAX` setting. -/
def REPEAT_MAX : Nat := 200

/-- The stored fields of a `BaseOccurrence` row: `start` (nullable in an
unsaved instance), `end` (nullable), `repeat` (rule string, `""` for none) and
`repeat_until` (nullable date). -/
structure OccRecord where
  start : Option Int
  end_ : Option Int
  repeat_rule : String
  repeat_until : Option Int
deriving DecidableEq, Repr

/-- Model of `OccurrenceTuple`: `(start, end, instance)` where `end` comes
straight from the record in the non-repeating branch (hence may be absent) and
`instance` is `self.occurrence_data`, which defaults to the record itself. -/
structure OccurrenceTuple where
  start : Int
  end_ : Option Int
  inst : OccRecord
deriving DecidableEq, Repr

/-- Model of `rruleset.between(lo, hi, inc=True)` on the rule's instant
stream: the instants within the inclusive bounds, in stream order. -/
def between (instants : List Int) (lo hi : Int) : List Int :=
  instants.filter (fun t => decide (lo ≤ t) && decide (t ≤ hi))

/-- `delta = (self.end - self.start) if self.end else timedelta(0)`. -/
def repeat_delta (end_ : Option Int) (s : Int) : Int :=
  match end_ with
  | some e => e - s
  | none => 0

/-- `if not from_date or from_date < self.start: from_date = self.start` —
the effective lower search bound starts from the first occurrence at the
earliest. -/
def eff_from (fromD : Option Int) (s : Int) : Int :=
  match fromD with
  | none => s
  | some f => if f < s then s else f

/-- The effective upper search bound: clamp `to_date` by `repeat_until` as
end of day when that is tighter, and default a missing bound to
`max_future_date()`. -/
def eff_to (repeat_until : Option Int) (toD : Option Int) (todayYear : Nat) :
    Int :=
  match repeat_until, toD with
  | some ru, none => as_datetime (.date ru) true
  | some ru, some t =>
    if as_datetime (.date ru) true < t then as_datetime (.date ru) true
    else t
  | none, some t => t
  | none, none => max_future_date todayYear

/-- The `for occ_start in repeater` loop of `BaseOccurrence.all_occurrences`,
instrumented: the second component counts how many rule instants the loop
pulls from the repeater before terminating (each iteration of the Python
`for` pulls one instant; the loop returns as soon as `count > limit`). -/
def expandLoop (o : OccRecord) (delta : Int) (limit : Nat) :
    List Int → Nat → List OccurrenceTuple × Nat
  | [], _ => ([], 0)
  | t :: rest, count =>
    if count + 1 > limit then ([], 1)
    else
      let r := expandLoop o delta limit rest (count + 1)
      (⟨t, some (t + delta), o⟩ :: r.1, r.2 + 1)

/-- Model of `BaseOccurrence.all_occurrences(from_date, to_date, limit)`,
instrumented: first component is the yielded occurrence list, second is the
number of rule instants consumed from the repeat capability.  `instants` is
the rule's instant stream, `todayYear` the ambient current year used by
`max_future_date`. -/
def all_occurrences_instr (o : OccRecord) (from_date to_date : Option DateOrDT)
    (limit : Nat) (instants : List Int) (todayYear : Nat) :
    List OccurrenceTuple × Nat :=
  match o.start with
  | none => ([], 0)
  | some s =>
    let fromD := from_date.map (fun d => as_datetime d false)
    let toD := to_date.map (fun d => as_datetime d true)
    if o.repeat_rule = "" then
      if ((match fromD with
           | none => true
           | some f =>
             decide (s ≥ f) ||
               (match o.end_ with
                | some e => decide (e ≥ f)
                | none => false)) &&
          (match toD with
           | none => true
           | some t => decide (s ≤ t)))
      then ([⟨s, o.end_, o⟩], 0) else ([], 0)
    else
      let delta : Int := repeat_delta o.end_ s
      expandLoop o delta limit
        (between instants (eff_from fromD s - delta)
          (eff_to o.repeat_until toD todayYear)) 0

/-- The occurrence list yielded by `BaseOccurrence.all_occurrences`. -/
def all_occurrences (o : OccRecord) (from_date to_date : Option DateOrDT)
    (limit : Nat) (instants : List Int) (todayYear : Nat) :
    List OccurrenceTuple :=
  (all_occurrences_instr o from_date to_date limit instants todayYear).1

/-- Number of rule instants pulled from the repeat capability during one fully
consumed run of `BaseOccurrence.all_occurrences`. -/
def rule_instants_consumed (o : OccRecord) (from_date to_date : Option DateOrDT)
    (limit : Nat) (instants : List Int) (todayYear : Nat) : Nat :=
  (all_occurrences_instr o from_date to_date limit instants todayYear).2

/-- Model (per record) of the `filter_from(qs, from_date)` predicate: a record
is kept iff `(end is not null AND end ≥ from) OR start ≥ from OR (repeat ≠ ''
AND (repeat_until ≥ from OR repeat_until is null))`.  `repeat_until` is a
`DateField`, so Django compares it against `from_date.date()`. -/
def filter_from_keeps (o : OccRecord) (from_date : DateOrDT) : Bool :=
  let f := as_datetime from_date false
  (match o.end_ with
   | some e => decide (e ≥ f)
   | none => false) ||
  (match o.start with
   | some s => decide (s ≥ f)
   | none => false) ||
  (decide (o.repeat_rule ≠ "") &&
   (match o.repeat_until with
    | some ru => decide (ru ≥ dateOfDT f)
    | none => true))

/-- The intersection test in the words of the specification: the record's
`end` (or `start` if no `end`) is ≥ `from_bound` (or no lower bound) AND the
record's `start` is ≤ `to_bound` (or no upper bound). -/
def spec_span_intersects (s : Int) (e : Option Int) (fromB toB : Option Int) :
    Bool :=
  (match fromB with
   | none => true
   | some f => decide (e.getD s ≥ f)) &&
  (match toB with
   | none => true
   | some t => decide (s ≤ t))

/-- Total number of elements across a list of lists (the merge's input size).
-/
def totalLen (lss : List (List α)) : Nat := (lss.map List.length).sum

/-- One selection step of `heapq.merge`: among the nonempty input sequences,
pick the head with the smallest key; on equal keys the earlier-listed
sequence wins (heapq orders its entries by `(key, iterable index)`).  Returns
the chosen element and the remaining sequences. -/
def popMin (key : α → Int) : List (List α) → Option (α × List (List α))
  | [] => none
  | [] :: rest => popMin key rest
  | (x :: xs) :: rest =>
    match popMin key rest with
    | none => some (x, [xs])
    | some (y, rest') =>
      if key x ≤ key y then some (x, xs :: rest)
      else some (y, (x :: xs) :: rest')

theorem popMin_eq_none (key : α → Int) :
    ∀ lss : List (List α), popMin key lss = none → totalLen lss = 0 := by
  intro lss
  induction lss with
  | nil => intro _; rfl
  | cons l rest ih =>
    cases l with
    | nil =>
      intro h
      have := ih (by simpa [popMin] using h)
      simpa [totalLen] using this
    | cons x xs =>
      intro h
      exfalso
      simp only [popMin] at h
      rcases hrest : popMin key rest with _ | ⟨y, rest'⟩
      · rw [hrest] at h; exact Option.noConfusion h
      · rw [hrest] at h
        by_cases hk : key x ≤ key y <;> simp [hk] at h

theorem popMin_totalLen (key : α → Int) :
    ∀ lss x rest, popMin key lss = some (x, rest) →
      totalLen rest + 1 = totalLen lss := by
  intro lss
  induction lss with
  | nil => intro x rest h; exact Option.noConfusion h
  | cons l tail ih =>
    cases l with
    | nil =>
      intro x rest h
      have := ih x rest (by simpa [popMin] using h)
      simpa [totalLen] using this
    | cons a as =>
      intro x rest h
      simp only [popMin] at h
      rcases htail : popMin key tail with _ | ⟨y, rest'⟩
      · rw [htail] at h
        have hlen := popMin_eq_none key tail htail
        simp only [Option.some.injEq, Prod.mk.injEq] at h
        obtain ⟨rfl, rfl⟩ := h
        simp [totalLen] at hlen ⊢
        omega
      · simp only [htail] at h
        by_cases hk : key a ≤ key y
        · rw [if_pos hk] at h
          simp only [Option.some.injEq, Prod.mk.injEq] at h
          obtain ⟨rfl, rfl⟩ := h
          simp [totalLen]
          omega
        · rw [if_neg hk] at h
          simp only [Option.some.injEq, Prod.mk.injEq] at h
          obtain ⟨rfl, rfl⟩ := h
          have := ih y rest' htail
          simp [totalLen] at this ⊢
          omega

/-- Model of `heapq.merge(*generators, key=lambda occ: occ.start)`: repeatedly
emit the smallest available head (ties broken towards the earlier-listed
sequence). -/
def heapq_merge (key : α → Int) (lss : List (List α)) : List α :=
  match h : popMin key lss with
  | none => []
  | some xr => xr.1 :: heapq_merge key xr.2
termination_by totalLen lss
decreasing_by
  have := popMin_totalLen key lss xr.1 xr.2 (by rw [h])
  omega

/-- Model of `combine_occurrences(generators, limit)`: the heap merge of the
per-record occurrence generators, truncated after `limit` items when a limit
is given. -/
def combine_occurrences (gens : List (List OccurrenceTuple))
    (limit : Option Nat) : List OccurrenceTuple :=
  match limit with
  | none => heapq_merge (fun occ => occ.start) gens
  | some l => (heapq_merge (fun occ => occ.start) gens).take l

theorem expandLoop_fst (o : OccRecord) (delta : Int) (limit : Nat) :
    ∀ (xs : List Int) (count : Nat),
      (expandLoop o delta limit xs count).1 =
        (xs.take (limit - count)).map (fun t => ⟨t, some (t + delta), o⟩) := by
  intro xs
  induction xs with
  | nil => intro count; simp [expandLoop]
  | cons t rest ih =>
    intro count
    by_cases hc : count + 1 > limit
    · have h0 : limit - count = 0 := by omega
      simp [expandLoop, hc, h0]
    · have h1 : limit - count = (limit - (count + 1)) + 1 := by omega
      simp [expandLoop, hc, h1, ih]

theorem expandLoop_snd (o : OccRecord) (delta : Int) (limit : Nat) :
    ∀ (xs : List Int) (count : Nat), count ≤ limit →
      (expandLoop o delta limit xs count).2 =
        min xs.length (limit + 1 - count) := by
  intro xs
  induction xs with
  | nil => intro count _; simp [expandLoop]
  | cons t rest ih =>
    intro count hcount
    by_cases hc : count + 1 > limit
    · simp only [expandLoop, if_pos hc]
      simp
      omega
    · have hrec := ih (count + 1) (by omega)
      simp only [expandLoop, if_neg hc]
      simp [hrec]
      omega

theorem all_occurrences_none_start (o : OccRecord) (f t : Option DateOrDT)
    (lim : Nat) (ins : List Int) (ty : Nat) (h : o.start = none) :
    all_occurrences o f t lim ins ty = [] := by
  simp [all_occurrences, all_occurrences_instr, h]

/-- C9: a record whose `start` field is absent yields no occurrences and no
error, for any bounds and any limit (`all_occurrences` returns immediately on
a falsy `start`). -/
theorem null_start_yields_nothing (o : OccRecord) (f t : Option DateOrDT)
    (lim : Nat) (ins : List Int) (ty : Nat) (h : o.start = none) :
    all_occurrences o f t lim ins ty = [] :=
  all_occurrences_none_start o f t lim ins ty h

theorem null_start_yields_nothing_witness :
    all_occurrences ⟨none, some 10, "RRULE:FREQ=DAILY", none⟩ none
      (some (.dt 100)) 5 [0, 1, 2] 2024 = [] :=
  null_start_yields_nothing _ _ _ _ _ _ rfl

/-- C7: expansion is deterministic — two runs of `all_occurrences` on
identical inputs (same record fields, bounds, limit, rule instants and
ambient current year) yield identical sequences.  The engine keeps no hidden
state: the only ambient input, the current date used by `max_future_date`, is
an explicit parameter of the model. -/
theorem all_occurrences_deterministic (o₁ o₂ : OccRecord)
    (f₁ f₂ t₁ t₂ : Option DateOrDT) (l₁ l₂ : Nat) (i₁ i₂ : List Int)
    (y₁ y₂ : Nat) (ho : o₁ = o₂) (hf : f₁ = f₂) (ht : t₁ = t₂) (hl : l₁ = l₂)
    (hi : i₁ = i₂) (hy : y₁ = y₂) :
    all_occurrences o₁ f₁ t₁ l₁ i₁ y₁ = all_occurrences o₂ f₂ t₂ l₂ i₂ y₂ := by
  subst ho hf ht hl hi hy
  rfl

theorem all_occurrences_deterministic_witness :
    all_occurrences ⟨some 0, some 3600, "RRULE:FREQ=WEEKLY", none⟩
        (some (.date 0)) none 3 [0, 604800] 2024
      = all_occurrences ⟨some 0, some 3600, "RRULE:FREQ=WEEKLY", none⟩
        (some (.date 0)) none 3 [0, 604800] 2024 :=
  all_occurrences_deterministic _ _ _ _ _ _ _ _ _ _ _ _
    rfl rfl rfl rfl rfl rfl

/-- C5 (amended): the expansion loop consumes at most `max_count + 1` rule
instants from the capability — after yielding `max_count` occurrences it
pulls exactly one further instant, whose arrival is what triggers the
`count > limit` check, and then stops. -/
theorem rule_consumption_bounded (o : OccRecord) (f t : Option DateOrDT)
    (lim : Nat) (ins : List Int) (ty : Nat) :
    rule_instants_consumed o f t lim ins ty ≤ lim + 1 := by
  unfold rule_instants_consumed all_occurrences_instr
  cases hs : o.start with
  | none => simp
  | some s =>
    by_cases hr : o.repeat_rule = ""
    · simp only [hr, if_true]
      split <;> simp
    · simp only [if_neg hr]
      rw [expandLoop_snd _ _ _ _ 0 (Nat.zero_le _)]
      omega

/-- C5 counterexample: with `max_count = 1` and three available rule
instants, the loop yields one occurrence but pulls two instants from the
capability — it does consume further rule-engine output after the
`max_count`-th occurrence has been yielded. -/
theorem max_count_overconsumption :
    (all_occurrences ⟨some 0, none, "RRULE:FREQ=DAILY", none⟩ none none 1
        [0, 86400, 172800] 2024).length = 1 ∧
    rule_instants_consumed ⟨some 0, none, "RRULE:FREQ=DAILY", none⟩ none none 1
        [0, 86400, 172800] 2024 = 2 ∧
    ¬ (rule_instants_consumed ⟨some 0, none, "RRULE:FREQ=DAILY", none⟩ none
        none 1 [0, 86400, 172800] 2024 ≤ 1) := by
  refine ⟨?_, ?_, ?_⟩ <;> decide

theorem all_occurrences_repeat (o : OccRecord) (s : Int)
    (f t : Option DateOrDT) (lim : Nat) (ins : List Int) (ty : Nat)
    (hs : o.start = some s) (hr : ¬ o.repeat_rule = "") :
    all_occurrences o f t lim ins ty =
      (List.take lim (between ins
          (eff_from (f.map (fun d => as_datetime d false)) s -
            repeat_delta o.end_ s)
          (eff_to o.repeat_until (t.map (fun d => as_datetime d true)) ty))).map
        (fun u => ⟨u, some (u + repeat_delta o.end_ s), o⟩) := by
  unfold all_occurrences all_occurrences_instr
  rw [hs]
  simp only [if_neg hr]
  rw [expandLoop_fst]
  simp

theorem between_sublist (instants : List Int) (lo hi : Int) :
    List.Sublist (between instants lo hi) instants :=
  List.filter_sublist instants

/-- C3: for every repeating definition and every `max_count` limit `lim`,
expansion yields at most `lim` occurrences, in strictly ascending start
order, assuming the rule capability returns strictly ascending instants. -/
theorem repeating_expansion_bounded_ascending (o : OccRecord)
    (f t : Option DateOrDT) (lim : Nat) (ins : List Int) (ty : Nat)
    (hr : ¬ o.repeat_rule = "") (hasc : ins.Pairwise (· < ·)) :
    (all_occurrences o f t lim ins ty).length ≤ lim ∧
    (all_occurrences o f t lim ins ty).Pairwise
      (fun a b => a.start < b.start) := by
  cases hs : o.start with
  | none =>
    rw [all_occurrences_none_start o f t lim ins ty hs]
    simp
  | some s =>
    rw [all_occurrences_repeat o s f t lim ins ty hs hr]
    constructor
    · simp only [List.length_map, List.length_take]
      omega
    · rw [List.pairwise_map]
      exact List.Pairwise.sublist
        ((List.take_sublist _ _).trans (between_sublist _ _ _)) hasc

theorem repeating_expansion_bounded_ascending_witness :
    (all_occurrences ⟨some 0, none, "RRULE:FREQ=DAILY", none⟩ none none 2
        [0, 86400, 172800] 2024).length ≤ 2 ∧
    (all_occurrences ⟨some 0, none, "RRULE:FREQ=DAILY", none⟩ none none 2
        [0, 86400, 172800] 2024).Pairwise (fun a b => a.start < b.start) :=
  repeating_expansion_bounded_ascending ⟨some 0, none, "RRULE:FREQ=DAILY", none⟩
    none none 2 [0, 86400, 172800] 2024 (by decide) (by decide)

/-- C8: for a repeating definition expanded with no `to_date` and no
`repeat_until`, the effective upper search bound defaults to
`max_future_date()` — midnight of January 1, ten years past the current year
— so no yielded occurrence starts after that instant. -/
theorem default_upper_bound_max_future (o : OccRecord) (f : Option DateOrDT)
    (lim : Nat) (ins : List Int) (ty : Nat)
    (hr : ¬ o.repeat_rule = "") (hru : o.repeat_until = none) :
    ∀ occ ∈ all_occurrences o f none lim ins ty,
      occ.start ≤ max_future_date ty := by
  cases hs : o.start with
  | none =>
    rw [all_occurrences_none_start o f none lim ins ty hs]
    simp
  | some s =>
    rw [all_occurrences_repeat o s f none lim ins ty hs hr]
    intro occ hocc
    rw [List.mem_map] at hocc
    obtain ⟨u, hu, rfl⟩ := hocc
    have hu2 := List.mem_of_mem_take hu
    rw [hru] at hu2
    unfold between at hu2
    rw [List.mem_filter] at hu2
    have := hu2.2
    simp only [Option.map_none', eff_to, Bool.and_eq_true,
      decide_eq_true_eq] at this
    exact this.2

theorem default_upper_bound_max_future_witness :
    (⟨0, some 0, ⟨some 0, none, "RRULE:FREQ=YEARLY", none⟩⟩ :
      OccurrenceTuple).start ≤ max_future_date 2024 :=
  default_upper_bound_max_future ⟨some 0, none, "RRULE:FREQ=YEARLY", none⟩
    none 5 [0] 2024 (by decide) rfl _ (by decide)

/-- C6 (amended): for a definition with a NON-EMPTY repeat rule whose
`repeat_until` date is strictly before its start's date, expansion yields an
empty sequence and raises no error, for any bounds — the effective upper
bound falls strictly below `start`, and the rule capability produces no
instants before `dtstart = start`. -/
theorem repeat_until_before_start_empty (o : OccRecord) (s ru : Int)
    (f t : Option DateOrDT) (lim : Nat) (ins : List Int) (ty : Nat)
    (hs : o.start = some s) (hr : ¬ o.repeat_rule = "")
    (hru : o.repeat_until = some ru) (hbefore : ru < dateOfDT s)
    (hcap : ∀ u ∈ ins, s ≤ u) :
    all_occurrences o f t lim ins ty = [] := by
  rw [all_occurrences_repeat o s f t lim ins ty hs hr]
  have heod : ru * 86400 + 86399 < s := by
    have h1 : dateOfDT s = s / 86400 := Int.fdiv_eq_ediv s (by norm_num)
    rw [h1] at hbefore
    omega
  have hto : eff_to o.repeat_until (t.map (fun d => as_datetime d true)) ty ≤
      ru * 86400 + 86399 := by
    rw [hru]
    cases t.map (fun d => as_datetime d true) with
    | none => simp [eff_to, as_datetime]
    | some tb =>
      simp only [eff_to, as_datetime]
      split
      · exact le_refl _
      · omega
  have hempty : between ins
      (eff_from (f.map (fun d => as_datetime d false)) s -
        repeat_delta o.end_ s)
      (eff_to o.repeat_until (t.map (fun d => as_datetime d true)) ty) = [] := by
    unfold between
    rw [List.filter_eq_nil_iff]
    intro u hu
    have hsu := hcap u hu
    simp only [Bool.and_eq_true, decide_eq_true_eq, not_and]
    intro _
    omega
  rw [hempty]
  simp

theorem repeat_until_before_start_empty_witness :
    all_occurrences ⟨some 90000, some 93600, "RRULE:FREQ=DAILY", some 0⟩
      none none 200 [90000, 176400] 2024 = [] :=
  repeat_until_before_start_empty
    ⟨some 90000, some 93600, "RRULE:FREQ=DAILY", some 0⟩ 90000 0 none none
    200 [90000, 176400] 2024 rfl (by decide) rfl (by decide) (by decide)

/-- C6 counterexample: the claim quantifies over every definition whose
`repeat_until` date precedes its start's date, but a definition with an EMPTY
repeat rule and such a `repeat_until` (doubly invalid, validation bypassed)
still yields its single occurrence — the non-repeating branch never consults
`repeat_until`.  Here `repeat_until` is day 0, start is on day 1. -/
theorem repeat_until_before_start_nonempty_cex :
    (⟨some 86400, none, "", some 0⟩ : OccRecord).repeat_until = some 0 ∧
    (0 : Int) < dateOfDT 86400 ∧
    all_occurrences ⟨some 86400, none, "", some 0⟩ none none 200 [] 2024 =
      [⟨86400, none, ⟨some 86400, none, "", some 0⟩⟩] := by
  refine ⟨rfl, by decide, by decide⟩

/-- C2: for every definition with an empty repeat rule, under the data-model
invariant `end > start` (when `end` is present), expansion yields exactly the
single occurrence `(start, end)` iff the span intersects the query range
under the spec's inclusive test — `end` (or `start` if no `end`) ≥
`from_bound` (or no lower bound) and `start` ≤ `to_bound` (or no upper
bound) — and otherwise yields nothing; never more than one result. -/
theorem nonrepeating_expansion (o : OccRecord) (s : Int)
    (f t : Option DateOrDT) (lim : Nat) (ins : List Int) (ty : Nat)
    (hs : o.start = some s) (hr : o.repeat_rule = "")
    (he : ∀ e ∈ o.end_, s < e) :
    all_occurrences o f t lim ins ty =
      if spec_span_intersects s o.end_ (f.map (fun d => as_datetime d false))
          (t.map (fun d => as_datetime d true))
      then [⟨s, o.end_, o⟩] else [] := by
  unfold all_occurrences all_occurrences_instr
  rw [hs]
  simp only [if_pos hr]
  cases hoe : o.end_ with
  | none =>
    rcases f with _ | fd <;> rcases t with _ | td <;>
      simp only [spec_span_intersects, Option.map_none', Option.map_some',
        Option.getD_none, Bool.or_false, Bool.and_true, Bool.true_and] <;>
      split <;> simp_all
  | some e =>
    have hse : s < e := he e (by simp [hoe])
    have hkey : ∀ F : Int,
        (decide (s ≥ F) || decide (e ≥ F)) = decide (e ≥ F) := by
      intro F
      by_cases hF : F ≤ s
      · have hFe : F ≤ e := le_trans hF (le_of_lt hse)
        simp [ge_iff_le, hF, hFe]
      · simp [ge_iff_le, hF]
    rcases f with _ | fd <;> rcases t with _ | td <;>
      simp only [spec_span_intersects, Option.map_none', Option.map_some',
        Option.getD_some, Bool.and_true, Bool.true_and, hkey] <;>
      split <;> simp_all

theorem nonrepeating_expansion_witness :
    all_occurrences ⟨some 1000, some 2000, "", none⟩ (some (.dt 2000))
      (some (.dt 1000)) 200 [] 2024 =
      [⟨1000, some 2000, ⟨some 1000, some 2000, "", none⟩⟩] := by
  have h := nonrepeating_expansion ⟨some 1000, some 2000, "", none⟩ 1000
    (some (.dt 2000)) (some (.dt 1000)) 200 [] 2024 rfl rfl
    (by intro e he2; simp at he2; omega)
  rw [h]
  decide

/-- C1 (falsified at a concrete input): a record satisfying every data-model
invariant — `start` = day 0 at 00:00, `end` = day 2 at 00:00 (so `end >
start`), daily repeat rule, `repeat_until` = day 1 (not before `start`'s
date) — queried with `from_date` = day 2 at 12:00 and no upper bound.  Its
expansion yields the occurrence (day 1 00:00, day 3 00:00), which intersects
the query range (its end lies past `from_date`), and `next_occurrence` —
hence the exact filter — keeps the record; yet `filter_from` evaluates all
three of its disjuncts false and drops it: the approximate filter has a
false negative.  The rule instants supplied are the daily rule's expansion
from `dtstart` = `start`. -/
theorem filter_from_false_negative :
    ((0 : Int) < 172800 ∧ dateOfDT 0 ≤ 1) ∧
    all_occurrences ⟨some 0, some 172800, "RRULE:FREQ=DAILY", some 1⟩
        (some (.dt 216000)) none 200 [0, 86400, 172800, 259200] 2024 =
      [⟨86400, some 259200,
        ⟨some 0, some 172800, "RRULE:FREQ=DAILY", some 1⟩⟩] ∧
    (216000 : Int) ≤ 259200 ∧
    filter_from_keeps ⟨some 0, some 172800, "RRULE:FREQ=DAILY", some 1⟩
      (.dt 216000) = false := by
  refine ⟨⟨by decide, by decide⟩, by decide, by decide, by decide⟩

theorem totalLen_eq_zero {α : Type _} {lss : List (List α)}
    (h : totalLen lss = 0) : ∀ l ∈ lss, l = [] := by
  intro l hl
  unfold totalLen at h
  rw [List.sum_eq_zero_iff] at h
  have : l.length = 0 := h _ (List.mem_map_of_mem List.length hl)
  exact List.length_eq_zero.mp this

theorem heapq_merge_eq (key : α → Int) (lss : List (List α)) :
    heapq_merge key lss =
      match popMin key lss with
      | none => []
      | some xr => xr.1 :: heapq_merge key xr.2 := by
  rw [heapq_merge]
  split
  · rename_i hnone
    rw [hnone]
  · rename_i xr hsome
    rw [hsome]

theorem popMin_mem (key : α → Int) :
    ∀ (lss : List (List α)) (x : α) (rest : List (List α)),
      popMin key lss = some (x, rest) →
      (∃ l ∈ lss, x ∈ l) ∧ ∀ l2 ∈ rest, ∀ z ∈ l2, ∃ l ∈ lss, z ∈ l := by
  intro lss
  induction lss with
  | nil => intro x rest h; exact absurd h (by simp [popMin])
  | cons l0 tail ih =>
    cases l0 with
    | nil =>
      intro x rest h
      simp only [popMin] at h
      obtain ⟨hx, hrest⟩ := ih x rest h
      refine ⟨?_, ?_⟩
      · obtain ⟨l, hl, hxl⟩ := hx
        exact ⟨l, List.mem_cons_of_mem _ hl, hxl⟩
      · intro l2 hl2 z hz
        obtain ⟨l, hl, hzl⟩ := hrest l2 hl2 z hz
        exact ⟨l, List.mem_cons_of_mem _ hl, hzl⟩
    | cons a as =>
      intro x rest h
      simp only [popMin] at h
      rcases htail : popMin key tail with _ | ⟨y, rest'⟩
      · simp only [htail, Option.some.injEq, Prod.mk.injEq] at h
        obtain ⟨rfl, rfl⟩ := h
        refine ⟨⟨a :: as, List.mem_cons_self _ _, List.mem_cons_self _ _⟩, ?_⟩
        intro l2 hl2 z hz
        rcases List.mem_cons.mp hl2 with h12 | hl2b
        · exact ⟨a :: as, List.mem_cons_self _ _,
            List.mem_cons_of_mem _ (h12 ▸ hz)⟩
        · exact absurd hl2b (List.not_mem_nil _)
      · simp only [htail] at h
        by_cases hk : key a ≤ key y
        · rw [if_pos hk] at h
          simp only [Option.some.injEq, Prod.mk.injEq] at h
          obtain ⟨rfl, rfl⟩ := h
          refine ⟨⟨a :: as, List.mem_cons_self _ _, List.mem_cons_self _ _⟩,
            ?_⟩
          intro l2 hl2 z hz
          rcases List.mem_cons.mp hl2 with h12 | hl2b
          · exact ⟨a :: as, List.mem_cons_self _ _,
              List.mem_cons_of_mem _ (h12 ▸ hz)⟩
          · exact ⟨l2, List.mem_cons_of_mem _ hl2b, hz⟩
        · rw [if_neg hk] at h
          simp only [Option.some.injEq, Prod.mk.injEq] at h
          obtain ⟨rfl, rfl⟩ := h
          obtain ⟨hy, hrest⟩ := ih y rest' htail
          refine ⟨?_, ?_⟩
          · obtain ⟨l, hl, hxl⟩ := hy
            exact ⟨l, List.mem_cons_of_mem _ hl, hxl⟩
          · intro l2 hl2 z hz
            rcases List.mem_cons.mp hl2 with h12 | hl2b
            · exact ⟨a :: as, List.mem_cons_self _ _, h12 ▸ hz⟩
            · obtain ⟨l, hl, hzl⟩ := hrest l2 hl2b z hz
              exact ⟨l, List.mem_cons_of_mem _ hl, hzl⟩

theorem popMin_is_min (key : α → Int) (R : α → α → Prop)
    (hrefl : ∀ a, R a a) (hkR : ∀ a b, key a < key b → R a b) :
    ∀ (lss : List (List α)) (x : α) (rest : List (List α)),
      (∀ l ∈ lss, l.Pairwise R) →
      (∀ l ∈ lss, l.Pairwise (fun a b => key a ≤ key b)) →
      List.Pairwise
        (fun l1 l2 => ∀ a ∈ l1, ∀ b ∈ l2, key a = key b → R a b) lss →
      popMin key lss = some (x, rest) →
      ∀ l ∈ lss, ∀ z ∈ l, key x ≤ key z ∧ R x z := by
  intro lss
  induction lss with
  | nil => intro x rest _ _ _ h; exact absurd h (by simp [popMin])
  | cons l0 tail ih =>
    cases l0 with
    | nil =>
      intro x rest hR hkey hcross h
      simp only [popMin] at h
      have hmain := ih x rest
        (fun l hl => hR l (List.mem_cons_of_mem _ hl))
        (fun l hl => hkey l (List.mem_cons_of_mem _ hl))
        (List.Pairwise.of_cons hcross) h
      intro l hl z hz
      rcases List.mem_cons.mp hl with h12 | hl2
      · exact absurd (h12 ▸ hz) (List.not_mem_nil _)
      · exact hmain l hl2 z hz
    | cons a as =>
      intro x rest hR hkey hcross h
      simp only [popMin] at h
      have hhead_R : List.Pairwise R (a :: as) := hR _ (List.mem_cons_self _ _)
      have hhead_key : List.Pairwise (fun p q => key p ≤ key q) (a :: as) :=
        hkey _ (List.mem_cons_self _ _)
      rcases htail : popMin key tail with _ | ⟨y, rest'⟩
      · simp only [htail, Option.some.injEq, Prod.mk.injEq] at h
        obtain ⟨rfl, rfl⟩ := h
        intro l hl z hz
        rcases List.mem_cons.mp hl with h12 | hl2
        · rcases List.mem_cons.mp (h12 ▸ hz) with h13 | hz2
          · subst h13; exact ⟨le_refl _, hrefl _⟩
          · exact ⟨List.rel_of_pairwise_cons hhead_key hz2,
              List.rel_of_pairwise_cons hhead_R hz2⟩
        · have h0 := popMin_eq_none key tail htail
          have : l = [] := totalLen_eq_zero h0 l hl2
          exact absurd (this ▸ hz) (List.not_mem_nil _)
      · simp only [htail] at h
        have ihy := ih y rest'
          (fun l hl => hR l (List.mem_cons_of_mem _ hl))
          (fun l hl => hkey l (List.mem_cons_of_mem _ hl))
          (List.Pairwise.of_cons hcross) htail
        by_cases hk : key a ≤ key y
        · rw [if_pos hk] at h
          simp only [Option.some.injEq, Prod.mk.injEq] at h
          obtain ⟨rfl, rfl⟩ := h
          intro l hl z hz
          rcases List.mem_cons.mp hl with h12 | hl2
          · rcases List.mem_cons.mp (h12 ▸ hz) with h13 | hz2
            · subst h13; exact ⟨le_refl _, hrefl _⟩
            · exact ⟨List.rel_of_pairwise_cons hhead_key hz2,
                List.rel_of_pairwise_cons hhead_R hz2⟩
          · have hyz := ihy l hl2 z hz
            have hxz : key a ≤ key z := le_trans hk hyz.1
            rcases lt_or_eq_of_le hxz with hlt | heq
            · exact ⟨hxz, hkR _ _ hlt⟩
            · have hcr := List.rel_of_pairwise_cons hcross hl2
              exact ⟨hxz, hcr a (List.mem_cons_self _ _) z hz heq⟩
        · rw [if_neg hk] at h
          simp only [Option.some.injEq, Prod.mk.injEq] at h
          obtain ⟨rfl, rfl⟩ := h
          intro l hl z hz
          rcases List.mem_cons.mp hl with h12 | hl2
          · have haz : key a ≤ key z := by
              rcases List.mem_cons.mp (h12 ▸ hz) with h13 | hz2
              · subst h13; exact le_refl _
              · exact List.rel_of_pairwise_cons hhead_key hz2
            have hyk : key y < key z := lt_of_lt_of_le (not_le.mp hk) haz
            exact ⟨le_of_lt hyk, hkR _ _ hyk⟩
          · exact ihy l hl2 z hz

theorem popMin_preserves_pairwise (key : α → Int) (R : α → α → Prop) :
    ∀ (lss : List (List α)) (x : α) (rest : List (List α)),
      popMin key lss = some (x, rest) →
      (∀ l ∈ lss, l.Pairwise R) →
      ∀ l ∈ rest, l.Pairwise R := by
  intro lss
  induction lss with
  | nil => intro x rest h; exact absurd h (by simp [popMin])
  | cons l0 tail ih =>
    cases l0 with
    | nil =>
      intro x rest h hR
      simp only [popMin] at h
      exact ih x rest h (fun l hl => hR l (List.mem_cons_of_mem _ hl))
    | cons a as =>
      intro x rest h hR
      simp only [popMin] at h
      have hhead : List.Pairwise R (a :: as) := hR _ (List.mem_cons_self _ _)
      rcases htail : popMin key tail with _ | ⟨y, rest'⟩
      · simp only [htail, Option.some.injEq, Prod.mk.injEq] at h
        obtain ⟨rfl, rfl⟩ := h
        intro l hl
        rcases List.mem_cons.mp hl with h12 | hl2
        · exact h12 ▸ List.Pairwise.of_cons hhead
        · exact absurd hl2 (List.not_mem_nil _)
      · simp only [htail] at h
        by_cases hk : key a ≤ key y
        · rw [if_pos hk] at h
          simp only [Option.some.injEq, Prod.mk.injEq] at h
          obtain ⟨rfl, rfl⟩ := h
          intro l hl
          rcases List.mem_cons.mp hl with h12 | hl2
          · exact h12 ▸ List.Pairwise.of_cons hhead
          · exact hR l (List.mem_cons_of_mem _ hl2)
        · rw [if_neg hk] at h
          simp only [Option.some.injEq, Prod.mk.injEq] at h
          obtain ⟨rfl, rfl⟩ := h
          intro l hl
          rcases List.mem_cons.mp hl with h12 | hl2
          · exact h12 ▸ hhead
          · exact ih y rest' htail
              (fun l2 hl2 => hR l2 (List.mem_cons_of_mem _ hl2)) l hl2

theorem popMin_preserves_cross (key : α → Int) (R : α → α → Prop) :
    ∀ (lss : List (List α)) (x : α) (rest : List (List α)),
      popMin key lss = some (x, rest) →
      List.Pairwise
        (fun l1 l2 => ∀ a ∈ l1, ∀ b ∈ l2, key a = key b → R a b) lss →
      List.Pairwise
        (fun l1 l2 => ∀ a ∈ l1, ∀ b ∈ l2, key a = key b → R a b) rest := by
  intro lss
  induction lss with
  | nil => intro x rest h; exact absurd h (by simp [popMin])
  | cons l0 tail ih =>
    cases l0 with
    | nil =>
      intro x rest h hcross
      simp only [popMin] at h
      exact ih x rest h (List.Pairwise.of_cons hcross)
    | cons a as =>
      intro x rest h hcross
      simp only [popMin] at h
      rcases htail : popMin key tail with _ | ⟨y, rest'⟩
      · simp only [htail, Option.some.injEq, Prod.mk.injEq] at h
        obtain ⟨rfl, rfl⟩ := h
        exact List.pairwise_singleton _ _
      · simp only [htail] at h
        by_cases hk : key a ≤ key y
        · rw [if_pos hk] at h
          simp only [Option.some.injEq, Prod.mk.injEq] at h
          obtain ⟨rfl, rfl⟩ := h
          refine List.Pairwise.cons ?_ (List.Pairwise.of_cons hcross)
          intro l hl p hp b hb
          exact List.rel_of_pairwise_cons hcross hl p
            (List.mem_cons_of_mem _ hp) b hb
        · rw [if_neg hk] at h
          simp only [Option.some.injEq, Prod.mk.injEq] at h
          obtain ⟨rfl, rfl⟩ := h
          refine List.Pairwise.cons ?_ (ih y rest' htail
            (List.Pairwise.of_cons hcross))
          intro l hl p hp b hb
          obtain ⟨l2, hl2, hbl2⟩ := (popMin_mem key tail y rest' htail).2 l hl b hb
          exact List.rel_of_pairwise_cons hcross hl2 p hp b hbl2

theorem heapq_merge_mem (key : α → Int) :
    ∀ (n : Nat) (lss : List (List α)), totalLen lss = n →
      ∀ z ∈ heapq_merge key lss, ∃ l ∈ lss, z ∈ l := by
  intro n
  induction n using Nat.strong_induction_on with
  | _ n ih =>
    intro lss hlen z hz
    rw [heapq_merge_eq] at hz
    rcases hpop : popMin key lss with _ | ⟨x, rest⟩
    · rw [hpop] at hz
      simp at hz
    · rw [hpop] at hz
      simp only [List.mem_cons] at hz
      have hlt : totalLen rest < n := by
        have := popMin_totalLen key lss x rest hpop
        omega
      rcases hz with rfl | hz2
      · exact (popMin_mem key lss z rest hpop).1
      · obtain ⟨l, hl, hzl⟩ := ih (totalLen rest) hlt rest rfl z hz2
        exact (popMin_mem key lss x rest hpop).2 l hl z hzl

theorem heapq_merge_pairwise (key : α → Int) (R : α → α → Prop)
    (hrefl : ∀ a, R a a) (hkR : ∀ a b, key a < key b → R a b) :
    ∀ (n : Nat) (lss : List (List α)), totalLen lss = n →
      (∀ l ∈ lss, l.Pairwise R) →
      (∀ l ∈ lss, l.Pairwise (fun a b => key a ≤ key b)) →
      List.Pairwise
        (fun l1 l2 => ∀ a ∈ l1, ∀ b ∈ l2, key a = key b → R a b) lss →
      (heapq_merge key lss).Pairwise R := by
  intro n
  induction n using Nat.strong_induction_on with
  | _ n ih =>
    intro lss hlen hR hkey hcross
    rw [heapq_merge_eq]
    rcases hpop : popMin key lss with _ | ⟨x, rest⟩
    · exact List.Pairwise.nil
    · refine List.Pairwise.cons ?_ ?_
      · intro z hz
        obtain ⟨l, hl, hzl⟩ :=
          heapq_merge_mem key (totalLen rest) rest rfl z hz
        obtain ⟨l0, hl0, hzl0⟩ := (popMin_mem key lss x rest hpop).2 l hl z hzl
        exact (popMin_is_min key R hrefl hkR lss x rest hR hkey hcross hpop
          l0 hl0 z hzl0).2
      · have hlt : totalLen rest < n := by
          have := popMin_totalLen key lss x rest hpop
          omega
        exact ih (totalLen rest) hlt rest rfl
          (popMin_preserves_pairwise key R lss x rest hpop hR)
          (popMin_preserves_pairwise key _ lss x rest hpop hkey)
          (popMin_preserves_cross key R lss x rest hpop hcross)

theorem heapq_merge_length (key : α → Int) :
    ∀ (n : Nat) (lss : List (List α)), totalLen lss = n →
      (heapq_merge key lss).length = totalLen lss := by
  intro n
  induction n using Nat.strong_induction_on with
  | _ n ih =>
    intro lss hlen
    rw [heapq_merge_eq]
    rcases hpop : popMin key lss with _ | ⟨x, rest⟩
    · rw [popMin_eq_none key lss hpop]
      rfl
    · have hind := popMin_totalLen key lss x rest hpop
      have hlt : totalLen rest < n := by omega
      have := ih (totalLen rest) hlt rest rfl
      simp only [List.length_cons, this]
      omega

theorem pairwise_of_total {β : Type _} {S : β → β → Prop}
    (h : ∀ a b, S a b) : ∀ l : List β, l.Pairwise S := by
  intro l
  induction l with
  | nil => exact List.Pairwise.nil
  | cons a l ih => exact List.Pairwise.cons (fun b _ => h a b) ih

/-- C4: merging input sequences that are each sorted by `start` produces a
globally sorted-by-`start` sequence, and with a limit `L` the merge produces
exactly `min L (total number of available occurrences)` items. -/
theorem combine_occurrences_sorted_and_limited
    (gens : List (List OccurrenceTuple)) (L : Nat)
    (hsorted : ∀ l ∈ gens, l.Pairwise (fun a b => a.start ≤ b.start)) :
    (combine_occurrences gens none).Pairwise
      (fun a b => a.start ≤ b.start) ∧
    (combine_occurrences gens (some L)).length = min L (totalLen gens) := by
  constructor
  · unfold combine_occurrences
    have hcross : List.Pairwise
        (fun l1 l2 : List OccurrenceTuple =>
          ∀ a ∈ l1, ∀ b ∈ l2, a.start = b.start → a.start ≤ b.start) gens :=
      pairwise_of_total (fun l1 l2 => fun a _ b _ h => le_of_eq h) gens
    exact heapq_merge_pairwise (fun occ : OccurrenceTuple => occ.start)
      (fun a b : OccurrenceTuple => a.start ≤ b.start)
      (fun a => le_refl a.start)
      (fun a b (h : a.start < b.start) => le_of_lt h) (totalLen gens) gens
      rfl hsorted hsorted hcross
  · unfold combine_occurrences
    rw [List.length_take, heapq_merge_length
      (fun occ : OccurrenceTuple => occ.start) (totalLen gens) gens rfl]

theorem combine_occurrences_sorted_and_limited_witness :
    (combine_occurrences
        [[⟨0, none, ⟨some 0, none, "", none⟩⟩,
          ⟨100, none, ⟨some 100, none, "", none⟩⟩],
         [⟨50, none, ⟨some 50, none, "", none⟩⟩]] none).Pairwise
      (fun a b => a.start ≤ b.start) ∧
    (combine_occurrences
        [[⟨0, none, ⟨some 0, none, "", none⟩⟩,
          ⟨100, none, ⟨some 100, none, "", none⟩⟩],
         [⟨50, none, ⟨some 50, none, "", none⟩⟩]] (some 2)).length =
      min 2 (totalLen
        ([[⟨0, none, ⟨some 0, none, "", none⟩⟩,
           ⟨100, none, ⟨some 100, none, "", none⟩⟩],
          [⟨50, none, ⟨some 50, none, "", none⟩⟩]] :
          List (List OccurrenceTuple))) :=
  combine_occurrences_sorted_and_limited
    [[⟨0, none, ⟨some 0, none, "", none⟩⟩,
      ⟨100, none, ⟨some 100, none, "", none⟩⟩],
     [⟨50, none, ⟨some 50, none, "", none⟩⟩]] 2 (by decide)

/-- Tag every occurrence with the position of its input sequence (positions
counted from `i`), mirroring how `heapq.merge` orders its heap entries by
`(key, iterable index)`. -/
def tagFrom (i : Nat) : List (List OccurrenceTuple) →
    List (List (Nat × OccurrenceTuple))
  | [] => []
  | l :: rest => l.map (fun x => (i, x)) :: tagFrom (i + 1) rest

theorem tagFrom_erase :
    ∀ (i : Nat) (lss : List (List OccurrenceTuple)),
      (tagFrom i lss).map (List.map Prod.snd) = lss := by
  intro i lss
  induction lss generalizing i with
  | nil => rfl
  | cons l rest ih =>
    simp [tagFrom, List.map_map, ih (i + 1)]

theorem tagFrom_tag_lb :
    ∀ (i : Nat) (lss : List (List OccurrenceTuple)),
      ∀ lt ∈ tagFrom i lss, ∀ p ∈ lt, i ≤ p.1 := by
  intro i lss
  induction lss generalizing i with
  | nil => intro lt hlt; exact absurd hlt (List.not_mem_nil _)
  | cons l rest ih =>
    intro lt hlt p hp
    rcases List.mem_cons.mp hlt with h12 | hlt2
    · rcases List.mem_map.mp (h12 ▸ hp) with ⟨x, _, rfl⟩
      exact le_refl _
    · exact le_trans (Nat.le_succ i) (ih (i + 1) lt hlt2 p hp)

theorem tagFrom_cross :
    ∀ (i : Nat) (lss : List (List OccurrenceTuple)),
      List.Pairwise (fun l1 l2 => ∀ a ∈ l1, ∀ b ∈ l2, a.1 < b.1)
        (tagFrom i lss) := by
  intro i lss
  induction lss generalizing i with
  | nil => exact List.Pairwise.nil
  | cons l rest ih =>
    refine List.Pairwise.cons ?_ (ih (i + 1))
    intro lt hlt a ha b hb
    rcases List.mem_map.mp ha with ⟨x, _, rfl⟩
    exact lt_of_lt_of_le (Nat.lt_succ_self i) (tagFrom_tag_lb (i + 1) rest lt hlt b hb)

theorem tagFrom_list_pairwise
    (R : Nat × OccurrenceTuple → Nat × OccurrenceTuple → Prop)
    (hlift : ∀ (j : Nat) (x y : OccurrenceTuple),
      x.start ≤ y.start → R (j, x) (j, y)) :
    ∀ (i : Nat) (lss : List (List OccurrenceTuple)),
      (∀ l ∈ lss, l.Pairwise (fun a b => a.start ≤ b.start)) →
      ∀ lt ∈ tagFrom i lss, lt.Pairwise R := by
  intro i lss
  induction lss generalizing i with
  | nil => intro _ lt hlt; exact absurd hlt (List.not_mem_nil _)
  | cons l rest ih =>
    intro hsorted lt hlt
    rcases List.mem_cons.mp hlt with h12 | hlt2
    · rw [h12, List.pairwise_map]
      exact (hsorted l (List.mem_cons_self _ _)).imp (hlift i _ _)
    · exact ih (i + 1)
        (fun l2 hl2 => hsorted l2 (List.mem_cons_of_mem _ hl2)) lt hlt2

theorem popMin_map {β : Type _} (g : β → α) (key : α → Int) :
    ∀ lss : List (List β),
      popMin key (lss.map (List.map g)) =
        (popMin (fun b => key (g b)) lss).map
          (fun p => (g p.1, p.2.map (List.map g))) := by
  intro lss
  induction lss with
  | nil => rfl
  | cons l rest ih =>
    cases l with
    | nil =>
      simpa [popMin] using ih
    | cons a as =>
      simp only [List.map_cons, popMin, ih]
      rcases popMin (fun b => key (g b)) rest with _ | ⟨y, rest'⟩
      · rfl
      · simp only [Option.map_some']
        by_cases hk : key (g a) ≤ key (g y)
        · rw [if_pos hk, if_pos hk]
          simp
        · rw [if_neg hk, if_neg hk]
          simp

theorem heapq_merge_map {β : Type _} (g : β → α) (key : α → Int) :
    ∀ (n : Nat) (lss : List (List β)), totalLen lss = n →
      heapq_merge key (lss.map (List.map g)) =
        (heapq_merge (fun b => key (g b)) lss).map g := by
  intro n
  induction n using Nat.strong_induction_on with
  | _ n ih =>
    intro lss hlen
    rw [heapq_merge_eq, heapq_merge_eq, popMin_map]
    rcases hpop : popMin (fun b => key (g b)) lss with _ | ⟨x, rest⟩
    · rfl
    · simp only [Option.map_some']
      have hlt : totalLen rest < n := by
        have := popMin_totalLen (fun b => key (g b)) lss x rest hpop
        omega
      rw [ih (totalLen rest) hlt rest rfl]
      rfl

/-- C10: the merge tie-break is deterministic and stable with respect to
input-sequence order: tagging every occurrence with the position of its input
sequence, the merged stream is sorted lexicographically by
(start, sequence position) — whenever occurrences from two sequences have
equal start instants, the occurrence from the earlier-listed sequence is
yielded first — and erasing the tags recovers `combine_occurrences` exactly.
-/
theorem merge_tie_break_stable (gens : List (List OccurrenceTuple))
    (hsorted : ∀ l ∈ gens, l.Pairwise (fun a b => a.start ≤ b.start)) :
    (heapq_merge (fun p => p.2.start) (tagFrom 0 gens)).Pairwise
      (fun a b => a.2.start < b.2.start ∨
        (a.2.start = b.2.start ∧ a.1 ≤ b.1)) ∧
    combine_occurrences gens none =
      (heapq_merge (fun p => p.2.start) (tagFrom 0 gens)).map Prod.snd := by
  constructor
  · have hR : ∀ lt ∈ tagFrom 0 gens,
        lt.Pairwise (fun a b : Nat × OccurrenceTuple =>
          a.2.start < b.2.start ∨ (a.2.start = b.2.start ∧ a.1 ≤ b.1)) := by
      apply tagFrom_list_pairwise _ _ 0 gens hsorted
      intro j x y hxy
      rcases lt_or_eq_of_le hxy with h1 | h1
      · exact Or.inl h1
      · exact Or.inr ⟨h1, le_refl _⟩
    have hkey : ∀ lt ∈ tagFrom 0 gens,
        lt.Pairwise (fun a b : Nat × OccurrenceTuple =>
          a.2.start ≤ b.2.start) := by
      apply tagFrom_list_pairwise _ _ 0 gens hsorted
      intro j x y hxy
      exact hxy
    have hcross : List.Pairwise
        (fun l1 l2 : List (Nat × OccurrenceTuple) =>
          ∀ a ∈ l1, ∀ b ∈ l2, a.2.start = b.2.start →
            a.2.start < b.2.start ∨ (a.2.start = b.2.start ∧ a.1 ≤ b.1))
        (tagFrom 0 gens) :=
      (tagFrom_cross 0 gens).imp
        (fun h a ha b hb heq => Or.inr ⟨heq, le_of_lt (h a ha b hb)⟩)
    exact heapq_merge_pairwise (fun p : Nat × OccurrenceTuple => p.2.start)
      (fun a b => a.2.start < b.2.start ∨
        (a.2.start = b.2.start ∧ a.1 ≤ b.1))
      (fun a => Or.inr ⟨rfl, le_refl _⟩) (fun a b h => Or.inl h)
      (totalLen (tagFrom 0 gens)) (tagFrom 0 gens) rfl hR hkey hcross
  · have h := heapq_merge_map
      (Prod.snd : Nat × OccurrenceTuple → OccurrenceTuple)
      (fun occ => occ.start) (totalLen (tagFrom 0 gens)) (tagFrom 0 gens) rfl
    rw [tagFrom_erase] at h
    exact h

theorem merge_tie_break_stable_witness :
    (heapq_merge (fun p => p.2.start)
        (tagFrom 0 [[⟨5, none, ⟨some 5, none, "", none⟩⟩],
                    [⟨5, none, ⟨some 5, some 6, "", none⟩⟩]])).Pairwise
      (fun a b => a.2.start < b.2.start ∨
        (a.2.start = b.2.start ∧ a.1 ≤ b.1)) ∧
    combine_occurrences [[⟨5, none, ⟨some 5, none, "", none⟩⟩],
                         [⟨5, none, ⟨some 5, some 6, "", none⟩⟩]] none =
      (heapq_merge (fun p => p.2.start)
        (tagFrom 0 [[⟨5, none, ⟨some 5, none, "", none⟩⟩],
                    [⟨5, none, ⟨some 5, some 6, "", none⟩⟩]])).map Prod.snd :=
  merge_tie_break_stable
    [[⟨5, none, ⟨some 5, none, "", none⟩⟩],
     [⟨5, none, ⟨some 5, some 6, "", none⟩⟩]] (by decide)
